import Mathlib

/-!
Shallow embedding of the RFC metadata and reference-resolution engine
(`src/rfc/util.rs`, `src/rfc/reference.rs`, `src/rfc/revise.rs`).
Text is modelled as `List Char`; machine integers carry no arithmetic
here, so ids are `Nat`.
-/

namespace Agx

/-! ## Character classes (Rust `char` ASCII helpers) -/

/-- Rust `char::is_ascii_uppercase`: code point in `A`..`Z` (65–90). -/
def isAsciiUpper (c : Char) : Bool := 65 ≤ c.toNat && c.toNat ≤ 90

/-- Rust `char::is_ascii_lowercase`: code point in `a`..`z` (97–122). -/
def isAsciiLower (c : Char) : Bool := 97 ≤ c.toNat && c.toNat ≤ 122

/-- Rust `char::is_ascii_digit`: code point in `0`..`9` (48–57). -/
def isAsciiDigit (c : Char) : Bool := 48 ≤ c.toNat && c.toNat ≤ 57

/-- Rust `char::is_ascii_alphanumeric`. -/
def isAsciiAlphanumeric (c : Char) : Bool :=
  isAsciiUpper c || isAsciiLower c || isAsciiDigit c

/-- Rust `char::is_ascii_whitespace`: space, tab, newline, form feed, CR. -/
def isAsciiWhitespace (c : Char) : Bool :=
  c = ' ' || c = '\t' || c = '\n' || c = '\x0c' || c = '\r'

/-- Rust `char::to_ascii_lowercase`: shift A–Z down by 32, leave the rest. -/
def toAsciiLower (c : Char) : Char :=
  if isAsciiUpper c then Char.ofNat (c.toNat + 32) else c

/-- Whitespace set used by Rust `str::trim` (restricted to the ASCII range
that can occur in these inputs). -/
def isTrimWhitespace (c : Char) : Bool :=
  c = ' ' || c = '\t' || c = '\n' || c = '\r' || c = '\x0b' || c = '\x0c'

/-- Rust `str::trim`: drop whitespace from both ends. -/
def trimChars (l : List Char) : List Char :=
  ((l.dropWhile isTrimWhitespace).reverse.dropWhile isTrimWhitespace).reverse

/-- Rust `str::to_ascii_lowercase` over the whole string. -/
def foldChars (l : List Char) : List Char := l.map toAsciiLower

/-! ## `slugify` (src/rfc/util.rs lines 71–104) -/

/-- One iteration of the `for ch in input.chars()` loop of `slugify`:
state is `(output, saw_dash)`. -/
def slugStep (st : List Char × Bool) (ch : Char) : List Char × Bool :=
  if isAsciiAlphanumeric ch then
    (st.1 ++ [toAsciiLower ch], false)
  else if isAsciiWhitespace ch || ch = '-' || ch = '_' then
    if st.2 || st.1.isEmpty then st
    else (st.1 ++ ['-'], true)
  else st

/-- The `while output.ends_with('-') { output.pop(); }` loop. -/
def dropTrailingDashes (l : List Char) : List Char :=
  (l.reverse.dropWhile (fun c => c == '-')).reverse

/-- `slugify` from src/rfc/util.rs: lower-case alphanumerics, collapse runs of
whitespace/`-`/`_` to a single dash, drop everything else, trim dashes,
fall back to `"untitled"`. -/
def slugify (input : List Char) : List Char :=
  let out := (input.foldl slugStep ([], false)).1
  let trimmed := dropTrailingDashes out
  if trimmed.isEmpty then "untitled".data else trimmed

/-- A character `slugify` can emit: lower-case letter, digit, or dash. -/
def isSlugChar (c : Char) : Bool := isAsciiLower c || isAsciiDigit c || c = '-'

/-- The normal form of `slugify` output (other than the `"untitled"`
fallback, which also satisfies it): non-empty, over `[a-z0-9-]`, with no
leading, trailing, or doubled hyphen. -/
def SlugCanonical (l : List Char) : Prop :=
  l ≠ [] ∧ (∀ c ∈ l, isSlugChar c = true) ∧
  l.head? ≠ some '-' ∧ l.getLast? ≠ some '-' ∧
  List.Chain' (fun a b => ¬(a = '-' ∧ b = '-')) l

/-- Loop invariant of `slugify`: the output so far is over `[a-z0-9-]`
with no leading or doubled hyphen, and `saw_dash` tracks whether it ends
in a hyphen. -/
def SlugInv (st : List Char × Bool) : Prop :=
  (∀ c ∈ st.1, isSlugChar c = true) ∧
  st.1.head? ≠ some '-' ∧
  List.Chain' (fun a b => ¬(a = '-' ∧ b = '-')) st.1 ∧
  (st.2 = true ↔ st.1.getLast? = some '-')

/-! ## `dedupe` (src/rfc/util.rs lines 106–115) -/

/-- The `for value in values` loop of `dedupe`, with `acc` the `deduped`
vector built so far. -/
def dedupeAux {α : Type} [DecidableEq α] (acc : List α) : List α → List α
  | [] => acc
  | v :: vs => if v ∈ acc then dedupeAux acc vs else dedupeAux (acc ++ [v]) vs

/-- `dedupe` from src/rfc/util.rs: keep the first occurrence of each value. -/
def dedupe {α : Type} [DecidableEq α] (values : List α) : List α :=
  dedupeAux [] values

/-- Spec-level description of first-seen deduplication: keep each element
once, at the position of its first occurrence. Used to characterise
`dedupe`. -/
def firstSeenDedup {α : Type} [DecidableEq α] : List α → List α
  | [] => []
  | x :: xs => x :: firstSeenDedup (xs.filter (fun y => decide (y ≠ x)))
termination_by l => l.length
decreasing_by
  simp only [List.length_cons]
  exact Nat.lt_succ_of_le (List.length_filter_le _ _)

example : slugify "Hello, AGX".data = "hello-agx".data := by decide
example : slugify "with__mixed---separators".data = "with-mixed-separators".data := by decide
example : slugify "!!!".data = "untitled".data := by decide
example : dedupe [4, 1, 4, 2, 1] = [4, 1, 2] := by decide

/-! ## Errors

One inductive covering every failure surfaced by the embedded functions
(the Rust code uses `anyhow` strings; the constructor records which bail
fired and the data interpolated into the message). -/

/-- Identifier/title pair shown in conflict diagnostics. -/
structure MatchPair where
  id : Nat
  title : List Char
deriving DecidableEq, Repr

inductive RfcError
  /-- `RFC file does not start with TOML frontmatter marker` /
  `missing closing TOML frontmatter marker`. -/
  | malformedDocument
  /-- `metadata field `{key}` exists but is not an array` (and the
  array-of-tables variant for `revision`). -/
  | invalidMetadata (field : List Char)
  /-- `metadata is missing required `{field}` field`. -/
  | missingField (field : List Char)
  /-- `RFC title reference cannot be empty`. -/
  | emptyReference
  /-- `matched multiple RFCs by …` — `tier` is 1 (exact), 2 (case-fold)
  or 3 (slug); carries every conflicting id/title pair. -/
  | ambiguousReference (tier : Nat) (pairs : List MatchPair)
  /-- `unable to resolve RFC title reference`. -/
  | referenceNotFound
  /-- `RFC title … already exists/conflicts with multiple existing RFCs`;
  carries every conflicting id/title pair. -/
  | duplicateTitle (pairs : List MatchPair)
  /-- `missing title index`. -/
  | missingTitleIndex
deriving DecidableEq, Repr

/-! ## Frontmatter codec (src/rfc/revise.rs `split_frontmatter`,
src/rfc/reference.rs `extract_frontmatter`) -/

/-- Rust `str::replace("\r\n", "\n")` (leftmost, non-overlapping). -/
def normalizeCRLF : List Char → List Char
  | [] => []
  | '\r' :: '\n' :: rest => '\n' :: normalizeCRLF rest
  | c :: rest => c :: normalizeCRLF rest

/-- Rust `str::starts_with` for a literal pattern. -/
def startsWithList : List Char → List Char → Bool
  | [], _ => true
  | _ :: _, [] => false
  | p :: ps, c :: cs => p == c && startsWithList ps cs

/-- Rust `str::find(pattern)`: byte index of the first occurrence. -/
def findSub (p : List Char) : List Char → Option Nat
  | [] => if startsWithList p [] then some 0 else none
  | c :: cs =>
    if startsWithList p (c :: cs) then some 0
    else (findSub p cs).map (· + 1)

/-- `split_frontmatter` from src/rfc/revise.rs: normalise CRLF, require the
opening `+++\n`, then cut at the first `\n+++\n`, falling back to the first
`\n+++` (stripping one following newline from the body if present). -/
def split_frontmatter (markdown : List Char) : Except RfcError (List Char × List Char) :=
  let normalized := normalizeCRLF markdown
  if startsWithList "+++\n".data normalized then
    let rest := normalized.drop 4
    match findSub "\n+++\n".data rest with
    | some e => .ok (rest.take e, rest.drop (e + 5))
    | none =>
      match findSub "\n+++".data rest with
      | some e =>
        let body := rest.drop (e + 4)
        .ok (rest.take e, if body.head? = some '\n' then body.drop 1 else body)
      | none => .error .malformedDocument
  else .error .malformedDocument

/-- `extract_frontmatter` from src/rfc/reference.rs (same scan, frontmatter
only). -/
def extract_frontmatter (markdown : List Char) : Except RfcError (List Char) :=
  let normalized := normalizeCRLF markdown
  if startsWithList "+++\n".data normalized then
    let rest := normalized.drop 4
    match findSub "\n+++\n".data rest with
    | some e => .ok (rest.take e)
    | none =>
      match findSub "\n+++".data rest with
      | some e => .ok (rest.take e)
      | none => .error .malformedDocument
  else .error .malformedDocument

deriving instance DecidableEq for Except

example : split_frontmatter "+++\nrfc = c\n+++\n\nbody\n".data =
    .ok ("rfc = c".data, "\nbody\n".data) := by decide
example : split_frontmatter "# RFC 0001: Title".data = .error .malformedDocument := by decide

/-! ## Title index and reference resolver (src/rfc/reference.rs) -/

/-- `RfcTitleEntry` from src/rfc/reference.rs: one indexed document.
`title_folded` is the trimmed, ASCII-lower-cased title and `title_slug`
its slug, exactly as `RfcTitleIndex::load` computes them. -/
structure RfcTitleEntry where
  id : Nat
  title : List Char
  title_folded : List Char
  title_slug : List Char
deriving DecidableEq, Repr

/-- `format_match_list`: the id/title pairs reported in diagnostics. -/
def format_match_list (entries : List RfcTitleEntry) : List MatchPair :=
  entries.map (fun e => ⟨e.id, e.title⟩)

/-- Tier-1 filter of `resolve_title`: exact title equality. -/
def exactMatches (entries : List RfcTitleEntry) (normalized : List Char) : List RfcTitleEntry :=
  entries.filter (fun e => e.title == normalized)

/-- Tier-2 filter of `resolve_title`: ASCII case-folded equality. -/
def foldedMatches (entries : List RfcTitleEntry) (folded : List Char) : List RfcTitleEntry :=
  entries.filter (fun e => e.title_folded == folded)

/-- Tier-3 filter of `resolve_title`: slug equality. -/
def slugMatches (entries : List RfcTitleEntry) (slug : List Char) : List RfcTitleEntry :=
  entries.filter (fun e => e.title_slug == slug)

/-- `RfcTitleIndex::resolve_title`: trim the input, reject empty input, then
try exact, case-folded and slug matching in order; a unique match resolves,
multiple matches at a tier are ambiguous, zero matches fall through. -/
def resolve_title (entries : List RfcTitleEntry) (input : List Char) : Except RfcError Nat :=
  let normalized := trimChars input
  if normalized.isEmpty then .error .emptyReference
  else
    match exactMatches entries normalized with
    | [e] => .ok e.id
    | [] =>
      match foldedMatches entries (foldChars normalized) with
      | [e] => .ok e.id
      | [] =>
        match slugMatches entries (slugify normalized) with
        | [e] => .ok e.id
        | [] => .error .referenceNotFound
        | es => .error (.ambiguousReference 3 (format_match_list es))
      | es => .error (.ambiguousReference 2 (format_match_list es))
    | es => .error (.ambiguousReference 1 (format_match_list es))

/-- `RfcTitleIndex::find_title_conflicts`: every entry equal to the trimmed
input under case-folding or slugging (empty input conflicts with nothing). -/
def find_title_conflicts (entries : List RfcTitleEntry) (input : List Char) :
    List RfcTitleEntry :=
  let normalized := trimChars input
  if normalized.isEmpty then []
  else
    entries.filter (fun e =>
      e.title_folded == foldChars normalized || e.title_slug == slugify normalized)

/-- `ensure_unique_rfc_title`: fail with the full conflict list when
`find_title_conflicts` is non-empty. -/
def ensure_unique_rfc_title (entries : List RfcTitleEntry) (title : List Char) :
    Except RfcError Unit :=
  match find_title_conflicts entries title with
  | [] => .ok ()
  | es => .error (.duplicateTitle (format_match_list es))

/-- `RfcReference` from src/cli.rs: a direct id or a title to resolve. -/
inductive RfcReference
  | id (n : Nat)
  | title (t : List Char)
deriving DecidableEq, Repr

/-- The `for reference in references` loop of `resolve_reference_list`:
ids pass through, titles resolve via the index (`missing title index` if
none was built). -/
def resolveRefsAux :
    Option (List RfcTitleEntry) → List RfcReference → Except RfcError (List Nat)
  | _, [] => .ok []
  | titleIndex, .id n :: rest => do
    pure (n :: (← resolveRefsAux titleIndex rest))
  | none, .title _ :: _ => .error .missingTitleIndex
  | some idx, .title t :: rest => do
    let i ← resolve_title idx t
    pure (i :: (← resolveRefsAux (some idx) rest))

/-- `resolve_reference_list`: resolve every reference in order, then
deduplicate. -/
def resolve_reference_list (references : List RfcReference)
    (titleIndex : Option (List RfcTitleEntry)) : Except RfcError (List Nat) :=
  (resolveRefsAux titleIndex references).map dedupe

/-! ## TOML metadata model (the `toml_edit` values the code touches) -/

/-- A scalar TOML value of the kinds the code reads or writes. -/
inductive TomlVal
  | str (s : List Char)
  | int (n : Int)
deriving DecidableEq, Repr

/-- One `[[revision]]` entry: `{date, change}`. -/
structure RevEntry where
  date : List Char
  change : List Char
deriving DecidableEq, Repr

/-- A `toml_edit::Item` of the shapes the code distinguishes: a scalar
value, a value array, or an array of tables. -/
inductive Item
  | value (v : TomlVal)
  | arr (vs : List TomlVal)
  | aot (ts : List RevEntry)
deriving DecidableEq, Repr

/-- A `toml_edit::DocumentMut` top-level table: keys in order. -/
abbrev Doc := List (List Char × Item)

/-- `doc.get(key)` / `doc.as_table().contains_key(key)`. -/
def getKey : Doc → List Char → Option Item
  | [], _ => none
  | (k, v) :: rest, key => if k = key then some v else getKey rest key

/-- `doc[key] = item`: overwrite in place when the key exists, else append
the key at the end of the table. -/
def setKey : Doc → List Char → Item → Doc
  | [], key, item => [(key, item)]
  | (k, v) :: rest, key, item =>
    if k = key then (key, item) :: rest else (k, v) :: setKey rest key item

/-- The `already_present` check of `append_unique_array_value`: some string
entry of the array equals the value (non-string entries are skipped by
`filter_map(as_str)`). -/
def containsStrVal (vs : List TomlVal) (v : List Char) : Bool :=
  vs.any (fun entry =>
    match entry with
    | .str s => s == v
    | _ => false)

/-- `append_unique_array_value` from src/rfc/revise.rs: create a singleton
array when the key is absent; error when it holds a non-array; otherwise
append unless some string entry already equals the new value. -/
def append_unique_array_value (doc : Doc) (key : List Char) (value_to_add : List Char) :
    Except RfcError Doc :=
  if (getKey doc key).isNone then
    .ok (setKey doc key (.arr [.str value_to_add]))
  else
    match getKey doc key with
    | some (.arr vs) =>
      if containsStrVal vs value_to_add then
        .ok doc
      else
        .ok (setKey doc key (.arr (vs ++ [.str value_to_add])))
    | _ => .error (.invalidMetadata key)

/-- `set_integer_array_value`: overwrite `key` with the integer array. -/
def set_integer_array_value (doc : Doc) (key : List Char) (values : List Nat) : Doc :=
  setKey doc key (.arr (values.map (fun n => .int (Int.ofNat n))))

/-- `append_revision_entry`: materialise an empty `[[revision]]` list when
absent, reject a non-array-of-tables `revision`, then push `{date, change}`. -/
def append_revision_entry (doc : Doc) (date : List Char) (change : List Char) :
    Except RfcError Doc :=
  let doc' := if (getKey doc "revision".data).isNone
    then setKey doc "revision".data (.aot []) else doc
  match getKey doc' "revision".data with
  | some (.aot ts) => .ok (setKey doc' "revision".data (.aot (ts ++ [⟨date, change⟩])))
  | _ => .error (.invalidMetadata "revision".data)

/-! ## Revision transaction (src/rfc/revise.rs `revise_rfc`) -/

/-- The reference-carrying slice of `RfcEditArgs` (src/cli.rs) consumed by
`revise_rfc`. -/
structure RfcEditArgs where
  authors : List (List Char)
  agents : List (List Char)
  discussion : Option (List Char)
  tracking_issue : Option (List Char)
  prerequisite : List RfcReference
  supersedes : List RfcReference
  superseded_by : List RfcReference
  title : Option (List Char)
  title_parts : List (List Char)

/-- `needs_title_lookup` in `resolve_metadata_references`: is any reference
a title? -/
def needsTitleLookup (cli : RfcEditArgs) : Bool :=
  (cli.prerequisite ++ cli.supersedes ++ cli.superseded_by).any
    (fun r => match r with | .title _ => true | .id _ => false)

/-- `ResolvedMetadataReferences`. -/
structure ResolvedMetadataReferences where
  prerequisite : List Nat
  supersedes : List Nat
  superseded_by : List Nat
deriving DecidableEq, Repr

/-- `resolve_metadata_references`: build the title index only when some
reference is a title, then resolve the three lists. -/
def resolve_metadata_references (idx : List RfcTitleEntry) (cli : RfcEditArgs) :
    Except RfcError ResolvedMetadataReferences := do
  let titleIndex := if needsTitleLookup cli then some idx else none
  let prerequisite ← resolve_reference_list cli.prerequisite titleIndex
  let supersedes ← resolve_reference_list cli.supersedes titleIndex
  let superseded_by ← resolve_reference_list cli.superseded_by titleIndex
  pure ⟨prerequisite, supersedes, superseded_by⟩

/-- `revision_title_override`: `--title` wins, else join `--title_parts`
with underscores, else nothing. -/
def revision_title_override (cli : RfcEditArgs) : Option (List Char) :=
  match cli.title with
  | some t => some t
  | none =>
    if cli.title_parts.isEmpty then none
    else some (List.intercalate "_".data cli.title_parts)

/-- The `for author in dedupe(..)` loops of `revise_rfc`: fold
`append_unique_array_value` over the additions. -/
def appendAllUnique (key : List Char) : Doc → List (List Char) → Except RfcError Doc
  | doc, [] => .ok doc
  | doc, v :: vs => do appendAllUnique key (← append_unique_array_value doc key v) vs

/-- Rust `str::lines`: split at `\n`, dropping a trailing empty segment and
a trailing `\r` on each line. -/
def rustLines (l : List Char) : List (List Char) :=
  let segs := l.splitOn '\n'
  let segs := if l.getLast? = some '\n' then segs.dropLast else segs
  (if l.isEmpty then [] else segs).map
    (fun s => if s.getLast? = some '\r' then s.dropLast else s)

/-- The `for line in body.lines()` loop of `rewrite_rfc_heading`: replace
the first line starting with `# RFC `, re-joining lines with `\n`. -/
def rewriteLoop (heading : List Char) : List (List Char) → Bool → List Char × Bool
  | [], replaced => ([], replaced)
  | line :: rest, replaced =>
    if !replaced && startsWithList "# RFC ".data line then
      let (out, r) := rewriteLoop heading rest true
      (heading ++ '\n' :: out, r)
    else
      let (out, r) := rewriteLoop heading rest replaced
      (line ++ '\n' :: out, r)

/-- `rewrite_rfc_heading`: replace the first `# RFC ` heading line, or
prepend a fresh heading followed by a blank line. -/
def rewrite_rfc_heading (body : List Char) (rfcId : List Char) (title : List Char) :
    List Char :=
  let heading := "# RFC ".data ++ rfcId ++ ": ".data ++ title
  let (out, replaced) := rewriteLoop heading (rustLines body) false
  if replaced then out
  else
    let prefixed := heading ++ "\n\n".data ++ body.dropWhile (fun c => c == '\n')
    if prefixed.getLast? = some '\n' then prefixed else prefixed ++ ['\n']

/-- Lines 79–90 of `revise_rfc`: wrap the serialized frontmatter in `+++`
markers, append the body minus leading newlines, and add a final newline
when one is missing. -/
def assemble_document (serialized_frontmatter : List Char) (body : List Char) : List Char :=
  let fm := if serialized_frontmatter.getLast? = some '\n'
    then serialized_frontmatter else serialized_frontmatter ++ ['\n']
  let updated := "+++\n".data ++ fm ++ "+++\n\n".data ++ body.dropWhile (fun c => c == '\n')
  if updated.getLast? = some '\n' then updated else updated ++ ['\n']

/-- Lines 57–63 of `revise_rfc`: set `last_updated` to the edit timestamp
and append the `{timestamp, "Revised"}` history entry, unconditionally. -/
def stamp_revision (doc : Doc) (ts : List Char) : Except RfcError Doc :=
  append_revision_entry (setKey doc "last_updated".data (.value (.str ts))) ts "Revised".data

/-- Lines 36–55 of `revise_rfc`: overwrite the scalar fields supplied by
the edit request, wholesale-replace each non-empty resolved reference list,
and overwrite the title when an override was given. -/
def apply_scalar_edits (cli : RfcEditArgs) (references : ResolvedMetadataReferences)
    (metadata : Doc) : Doc :=
  let metadata := match cli.discussion with
    | some d => setKey metadata "discussion".data (.value (.str d))
    | none => metadata
  let metadata := match cli.tracking_issue with
    | some t => setKey metadata "tracking_issue".data (.value (.str t))
    | none => metadata
  let metadata := if references.prerequisite.isEmpty then metadata
    else set_integer_array_value metadata "prerequisite".data references.prerequisite
  let metadata := if references.supersedes.isEmpty then metadata
    else set_integer_array_value metadata "supersedes".data references.supersedes
  let metadata := if references.superseded_by.isEmpty then metadata
    else set_integer_array_value metadata "superseded_by".data references.superseded_by
  match revision_title_override cli with
  | some t => setKey metadata "title".data (.value (.str t))
  | none => metadata

/-- Lines 28–63 of `revise_rfc`: the metadata merge on the parsed
frontmatter — unique-append authors/agents, resolve and wholesale-replace
the reference lists when supplied, overwrite scalars and title, stamp the
revision. -/
def merge_metadata (idx : List RfcTitleEntry) (cli : RfcEditArgs) (ts : List Char)
    (metadata : Doc) : Except RfcError Doc := do
  let metadata ← appendAllUnique "authors".data metadata (dedupe cli.authors)
  let metadata ← appendAllUnique "agents".data metadata (dedupe cli.agents)
  let references ← resolve_metadata_references idx cli
  stamp_revision (apply_scalar_edits cli references metadata) ts

/-- `revise_rfc` from src/rfc/revise.rs, as a pure transaction from the
original file text to the updated file text. The TOML parser and printer
of `toml_edit` are not part of this repository and enter as parameters
`parse` and `serializeDoc`; `ts` stands for `timestamp_now()` and `idx`
for the loaded title index. -/
def revise_rfc (parse : List Char → Except RfcError Doc)
    (serializeDoc : Doc → List Char) (idx : List RfcTitleEntry)
    (cli : RfcEditArgs) (ts : List Char) (original : List Char) :
    Except RfcError (List Char) := do
  let (frontmatter, body) ← split_frontmatter original
  let parsed ← parse frontmatter
  let metadata ← merge_metadata idx cli ts parsed
  let rfcId ← match getKey metadata "rfc".data with
    | some (.value (.str s)) => pure s
    | _ => throw (.missingField "rfc".data)
  let title ← match revision_title_override cli with
    | some t => pure t
    | none =>
      match getKey metadata "title".data with
      | some (.value (.str s)) => pure s
      | _ => throw (.missingField "title".data)
  let updated_body := rewrite_rfc_heading body rfcId title
  pure (assemble_document (serializeDoc metadata) updated_body)

/-- The on-disk content after running the revise transaction: `fs::write`
happens only on success, so an error leaves the original text. -/
def diskAfterRevise (parse : List Char → Except RfcError Doc)
    (serializeDoc : Doc → List Char) (idx : List RfcTitleEntry)
    (cli : RfcEditArgs) (ts : List Char) (original : List Char) : List Char :=
  match revise_rfc parse serializeDoc idx cli ts original with
  | .ok updated => updated
  | .error _ => original

/-- An edit request with nothing supplied. -/
def emptyEdit : RfcEditArgs := ⟨[], [], none, none, [], [], [], none, []⟩

/-! ## Spec-side predicates (used to compare behaviour with the spec's
wording; translated from spec.md, not from the source) -/

/-- Modelled from the spec: the frontmatter-extraction failure condition of
§4.1 — a "matching closing delimiter line" is an occurrence of the marker
at the start of a later line that is "either followed by a newline or at
end-of-input". -/
def specHasAcceptableClosing : List Char → Bool
  | [] => false
  | c :: cs =>
    (c = '\n' && startsWithList "+++".data cs &&
      (decide (cs.drop 3 = []) || (cs.drop 3).head? == some '\n')) ||
    specHasAcceptableClosing cs

/-- Modelled from the spec: `extract` "fails with `MalformedDocument` if the
text does not begin with the exact opening delimiter line, or if no matching
closing delimiter line is found afterward". -/
def spec_extract_fails (markdown : List Char) : Bool :=
  let normalized := normalizeCRLF markdown
  !(startsWithList "+++\n".data normalized) ||
    !(specHasAcceptableClosing (normalized.drop 4))

/-- Modelled from the spec: the claim's "ends with exactly one newline
character" — the last character is a newline and the one before it (when
present) is not. -/
def endsWithSingleNewline (l : List Char) : Bool :=
  l.getLast? == some '\n' && !(l.dropLast.getLast? == some '\n')

/-! ## Helper lemmas -/

theorem startsWithList_iff (p l : List Char) :
    startsWithList p l = true ↔ ∃ t, l = p ++ t := by
  induction p generalizing l with
  | nil => simp [startsWithList]
  | cons a ps ih =>
    cases l with
    | nil => simp [startsWithList]
    | cons c cs =>
      simp only [startsWithList, Bool.and_eq_true, beq_iff_eq, ih, List.cons_append]
      constructor
      · rintro ⟨rfl, t, rfl⟩
        exact ⟨t, rfl⟩
      · rintro ⟨t, ht⟩
        obtain ⟨rfl, rfl⟩ := List.cons_eq_cons.mp ht
        exact ⟨rfl, t, rfl⟩

theorem findSub_none_iff (p l : List Char) :
    findSub p l = none ↔ ¬ ∃ pre post, l = pre ++ p ++ post := by
  induction l with
  | nil =>
    cases hp : startsWithList p [] with
    | true =>
      obtain ⟨t, ht⟩ := (startsWithList_iff p []).mp hp
      have hp0 : p = [] := by
        cases p with
        | nil => rfl
        | cons a as => simp at ht
      subst hp0
      constructor
      · intro h
        simp [findSub, startsWithList] at h
      · intro h
        exact absurd ⟨[], [], rfl⟩ h
    | false =>
      simp only [findSub, hp, Bool.false_eq_true, if_false]
      constructor
      · rintro - ⟨pre, post, hd⟩
        have hpre : pre = [] := by
          cases pre with
          | nil => rfl
          | cons a as => simp at hd
        subst hpre
        have hp0 : p = [] := by
          cases p with
          | nil => rfl
          | cons a as => simp at hd
        subst hp0
        simp [startsWithList] at hp
      · intro _; trivial
  | cons c cs ih =>
    by_cases hs : startsWithList p (c :: cs) = true
    · simp only [findSub, hs, if_true]
      obtain ⟨t, ht⟩ := (startsWithList_iff p (c :: cs)).mp hs
      constructor
      · intro h; cases h
      · intro h
        exact absurd ⟨[], t, by simpa using ht⟩ h
    · rw [findSub, if_neg hs]
      have hmap : (findSub p cs).map (· + 1) = none ↔ findSub p cs = none := by
        cases findSub p cs <;> simp
      rw [hmap, ih]
      constructor
      · intro h ⟨pre, post, hd⟩
        cases pre with
        | nil =>
          exact hs ((startsWithList_iff p (c :: cs)).mpr ⟨post, by simpa using hd⟩)
        | cons a pre' =>
          obtain ⟨rfl, htl⟩ := List.cons_eq_cons.mp (by simpa using hd)
          exact h ⟨pre', post, by simpa [List.append_assoc] using htl⟩
      · intro h ⟨pre, post, hd⟩
        exact h ⟨c :: pre, post, by simp [hd]⟩

theorem getKey_setKey_self (d : Doc) (k : List Char) (v : Item) :
    getKey (setKey d k v) k = some v := by
  induction d with
  | nil => simp [setKey, getKey]
  | cons hd tl ih =>
    obtain ⟨k0, v0⟩ := hd
    by_cases h : k0 = k
    · simp [setKey, h, getKey]
    · simp [setKey, h, getKey, ih]

theorem getKey_setKey_ne (d : Doc) (k k' : List Char) (v : Item) (h : k' ≠ k) :
    getKey (setKey d k v) k' = getKey d k' := by
  have hk : k ≠ k' := fun hh => h hh.symm
  induction d with
  | nil =>
    simp only [setKey, getKey]
    rw [if_neg hk]
  | cons hd tl ih =>
    obtain ⟨k0, v0⟩ := hd
    by_cases h0 : k0 = k
    · subst h0
      simp [setKey, getKey, hk]
    · simp only [setKey, h0, if_false, getKey]
      by_cases h1 : k0 = k'
      · simp [h1]
      · simp [h1, ih]

theorem except_bind_ok {α β : Type} (a : α) (f : α → Except RfcError β) :
    (Except.ok a >>= f) = f a := rfl

theorem except_bind_error {α β : Type} (e : RfcError) (f : α → Except RfcError β) :
    ((Except.error e : Except RfcError α) >>= f) = Except.error e := rfl

theorem dedupeAux_eq_firstSeen {α : Type} [DecidableEq α] (xs : List α) :
    ∀ acc, dedupeAux acc xs = acc ++ firstSeenDedup (xs.filter (fun x => decide (x ∉ acc))) := by
  induction xs with
  | nil => intro acc; simp [dedupeAux, firstSeenDedup]
  | cons v vs ih =>
    intro acc
    by_cases hv : v ∈ acc
    · rw [dedupeAux, if_pos hv, ih acc, List.filter_cons]
      simp [hv]
    · rw [dedupeAux, if_neg hv, ih (acc ++ [v]), List.filter_cons]
      have hd : decide (v ∉ acc) = true := by simp [hv]
      rw [hd, if_pos rfl, firstSeenDedup, List.filter_filter]
      have hpt : ∀ a : α, (decide (a ≠ v) && decide (a ∉ acc)) = decide (a ∉ acc ++ [v]) := by
        intro a
        by_cases h1 : a = v <;> by_cases h2 : a ∈ acc <;> simp [h1, h2]
      rw [List.filter_congr (fun a _ => hpt a)]
      simp

theorem dedupe_eq_firstSeenDedup {α : Type} [DecidableEq α] (xs : List α) :
    dedupe xs = firstSeenDedup xs := by
  rw [dedupe, dedupeAux_eq_firstSeen]
  have h : List.filter (fun x => decide (x ∉ ([] : List α))) xs = xs := by
    apply List.filter_eq_self.mpr
    intro a _
    simp
  rw [h]
  simp

theorem mem_firstSeenDedup {α : Type} [DecidableEq α] (a : α) (xs : List α) :
    a ∈ firstSeenDedup xs ↔ a ∈ xs := by
  induction xs using firstSeenDedup.induct with
  | case1 => simp [firstSeenDedup]
  | case2 x xs ih =>
    rw [firstSeenDedup]
    by_cases h : a = x
    · simp [h]
    · simp only [List.mem_cons, h, false_or, ih, List.mem_filter]
      simp [h]

theorem nodup_firstSeenDedup {α : Type} [DecidableEq α] (xs : List α) :
    (firstSeenDedup xs).Nodup := by
  induction xs using firstSeenDedup.induct with
  | case1 => simp [firstSeenDedup]
  | case2 x xs ih =>
    rw [firstSeenDedup]
    refine List.nodup_cons.mpr ⟨?_, ih⟩
    intro hmem
    rw [mem_firstSeenDedup] at hmem
    simp at hmem

theorem firstSeenDedup_sublist {α : Type} [DecidableEq α] (xs : List α) :
    List.Sublist (firstSeenDedup xs) xs := by
  induction xs using firstSeenDedup.induct with
  | case1 => simp [firstSeenDedup]
  | case2 x xs ih =>
    rw [firstSeenDedup]
    exact (ih.trans (List.filter_sublist xs)).cons₂ x

theorem firstSeenDedup_ne_nil {α : Type} [DecidableEq α] (x : α) (xs : List α) :
    firstSeenDedup (x :: xs) ≠ [] := by
  rw [firstSeenDedup]
  simp

theorem resolveRefsAux_ok_length (ti : Option (List RfcTitleEntry)) :
    ∀ (refs : List RfcReference) (raw : List Nat),
      resolveRefsAux ti refs = .ok raw → raw.length = refs.length := by
  intro refs
  induction refs with
  | nil =>
    intro raw h
    simp [resolveRefsAux] at h
    simp [← h]
  | cons r rest ih =>
    intro raw h
    cases r with
    | id n =>
      simp only [resolveRefsAux] at h
      cases hrec : resolveRefsAux ti rest with
      | error e => rw [hrec, except_bind_error] at h; cases h
      | ok t =>
        rw [hrec, except_bind_ok] at h
        cases h
        simp [ih t hrec]
    | title s =>
      cases ti with
      | none => simp only [resolveRefsAux] at h; cases h
      | some idx =>
        simp only [resolveRefsAux] at h
        cases hres : resolve_title idx s with
        | error e => rw [hres, except_bind_error] at h; cases h
        | ok i =>
          rw [hres, except_bind_ok] at h
          cases hrec : resolveRefsAux (some idx) rest with
          | error e => rw [hrec, except_bind_error] at h; cases h
          | ok t =>
            rw [hrec, except_bind_ok] at h
            cases h
            simp [ih t hrec]

/-! ## C5: frontmatter extraction failure condition -/

/-- **C5** (amended): after CRLF normalisation, `split_frontmatter` fails
with a malformed-document error iff the text does not begin with the
opening `+++` delimiter line, or the remainder contains no occurrence of a
newline followed by `+++` — regardless of what follows that marker. -/
theorem claim_C5_split_frontmatter_fails_iff (markdown : List Char) :
    split_frontmatter markdown = .error .malformedDocument ↔
      (startsWithList "+++\n".data (normalizeCRLF markdown) = false ∨
        ¬ ∃ pre post, (normalizeCRLF markdown).drop 4 = pre ++ "\n+++".data ++ post) := by
  by_cases hs : startsWithList "+++\n".data (normalizeCRLF markdown) = true
  · rw [split_frontmatter]
    simp only [hs, if_true]
    cases h5 : findSub "\n+++\n".data ((normalizeCRLF markdown).drop 4) with
    | some e =>
      have hex : ∃ pre post, (normalizeCRLF markdown).drop 4 = pre ++ "\n+++".data ++ post := by
        have hne : findSub "\n+++\n".data ((normalizeCRLF markdown).drop 4) ≠ none := by
          simp [h5]
        have h6 := (not_iff_not.mpr (findSub_none_iff "\n+++\n".data
          ((normalizeCRLF markdown).drop 4))).mp hne
        push_neg at h6
        obtain ⟨pre, post, hd⟩ := h6
        refine ⟨pre, '\n' :: post, ?_⟩
        rw [hd]
        simp
      apply iff_of_false
      · simp
      · rintro (h1 | h2)
        · exact absurd h1 (by simp)
        · exact h2 hex
    | none =>
      cases h4 : findSub "\n+++".data ((normalizeCRLF markdown).drop 4) with
      | some e =>
        have hex : ∃ pre post, (normalizeCRLF markdown).drop 4 = pre ++ "\n+++".data ++ post := by
          have hne : findSub "\n+++".data ((normalizeCRLF markdown).drop 4) ≠ none := by
            simp [h4]
          have h6 := (not_iff_not.mpr (findSub_none_iff "\n+++".data
            ((normalizeCRLF markdown).drop 4))).mp hne
          push_neg at h6
          exact h6
        apply iff_of_false
        · simp
        · rintro (h1 | h2)
          · exact absurd h1 (by simp)
          · exact h2 hex
      | none =>
        have hno := (findSub_none_iff "\n+++".data ((normalizeCRLF markdown).drop 4)).mp h4
        exact iff_of_true rfl (Or.inr hno)
  · rw [split_frontmatter]
    rw [if_neg hs]
    exact iff_of_true rfl (Or.inl (by simpa using hs))

/-- **C5** counterexample: on `"+++\nabc\n+++x"` the spec's condition says
extraction must fail (the closing `+++` is followed by `x`, neither a
newline nor end-of-input), yet `split_frontmatter` succeeds. -/
theorem claim_C5_counterexample :
    spec_extract_fails "+++\nabc\n+++x".data = true ∧
      split_frontmatter "+++\nabc\n+++x".data = .ok ("abc".data, "x".data) := by
  decide

/-! ## C6: assembled document's trailing newline -/

/-- **C6** (amended): the document assembled by `revise_rfc` always ends
with a newline character — one is appended when missing, but pre-existing
trailing newlines of the body are preserved, not collapsed to exactly one. -/
theorem claim_C6_assemble_ends_with_newline (fm body : List Char) :
    (assemble_document fm body).getLast? = some '\n' := by
  unfold assemble_document
  dsimp only
  split <;> split
  all_goals first
    | assumption
    | exact List.getLast?_concat _

/-- **C6** counterexample: assembling with a body that ends in two newlines
(or with an empty body) yields text whose last two characters are both
newlines, refuting "ends with exactly one newline character". -/
theorem claim_C6_counterexample :
    endsWithSingleNewline (assemble_document "a = 1".data "body\n\n".data) = false ∧
      endsWithSingleNewline (assemble_document "a = 1".data "".data) = false := by
  decide

/-! ## C9: failed transactions leave the file untouched -/

/-- **C9**: if any step of the revise transaction fails, no write occurs
and the on-disk content is byte-for-byte the original text. -/
theorem claim_C9_error_leaves_disk_unchanged
    (parse : List Char → Except RfcError Doc) (serializeDoc : Doc → List Char)
    (idx : List RfcTitleEntry) (cli : RfcEditArgs) (ts : List Char)
    (original : List Char) (e : RfcError)
    (h : revise_rfc parse serializeDoc idx cli ts original = .error e) :
    diskAfterRevise parse serializeDoc idx cli ts original = original := by
  unfold diskAfterRevise
  rw [h]

/-- **C9** witness: a malformed original document makes the transaction
fail and leaves the disk content unchanged. -/
theorem claim_C9_witness :
    diskAfterRevise (fun _ => .ok []) (fun _ => []) [] emptyEdit [] "x".data = "x".data :=
  claim_C9_error_leaves_disk_unchanged (fun _ => .ok []) (fun _ => []) [] emptyEdit []
    "x".data .malformedDocument (by decide)

/-! ## C2: unique append of author/agent entries -/

theorem append_unique_spec {doc : Doc} {key v : List Char} {vs : List TomlVal}
    (h : getKey doc key = some (.arr vs)) :
    (containsStrVal vs v = true → append_unique_array_value doc key v = .ok doc) ∧
    (containsStrVal vs v = false →
      append_unique_array_value doc key v = .ok (setKey doc key (.arr (vs ++ [.str v])))) := by
  constructor
  · intro hc
    rw [append_unique_array_value, h]
    simp [hc]
  · intro hc
    rw [append_unique_array_value, h]
    simp [hc]

theorem append_unique_getKey_ne {doc doc' : Doc} {key v k' : List Char}
    (h : append_unique_array_value doc key v = .ok doc') (hk : k' ≠ key) :
    getKey doc' k' = getKey doc k' := by
  rw [append_unique_array_value] at h
  split at h
  · cases h
    exact getKey_setKey_ne _ _ _ _ hk
  · split at h
    · split at h
      · cases h; rfl
      · cases h
        exact getKey_setKey_ne _ _ _ _ hk
    · cases h

theorem appendAllUnique_getKey_ne :
    ∀ (vals : List (List Char)) {doc doc' : Doc} {key k' : List Char},
      appendAllUnique key doc vals = .ok doc' → k' ≠ key →
      getKey doc' k' = getKey doc k' := by
  intro vals
  induction vals with
  | nil =>
    intro doc doc' key k' h hk
    simp only [appendAllUnique] at h
    cases h
    rfl
  | cons v vs ih =>
    intro doc doc' key k' h hk
    simp only [appendAllUnique] at h
    cases ha : append_unique_array_value doc key v with
    | error e => rw [ha, except_bind_error] at h; cases h
    | ok d1 =>
      rw [ha, except_bind_ok] at h
      rw [ih h hk, append_unique_getKey_ne ha hk]

theorem appendAllUnique_extends :
    ∀ (vals : List (List Char)) {doc doc' : Doc} {key : List Char} {u : List TomlVal},
      getKey doc key = some (.arr u) → appendAllUnique key doc vals = .ok doc' →
      ∃ s, getKey doc' key = some (.arr (u ++ s)) := by
  intro vals
  induction vals with
  | nil =>
    intro doc doc' key u h1 h2
    simp only [appendAllUnique] at h2
    cases h2
    exact ⟨[], by simpa using h1⟩
  | cons v vs ih =>
    intro doc doc' key u h1 h2
    simp only [appendAllUnique] at h2
    by_cases hc : containsStrVal u v = true
    · rw [(append_unique_spec h1).1 hc, except_bind_ok] at h2
      exact ih h1 h2
    · rw [(append_unique_spec h1).2 (by simpa using hc), except_bind_ok] at h2
      obtain ⟨s, hs⟩ := ih (getKey_setKey_self doc key _) h2
      exact ⟨.str v :: s, by simpa [List.append_assoc] using hs⟩

/-- **C2**: appending an author/agent entry to a stored list keeps every
existing entry in place and order; a value string-equal to an existing
entry is skipped, otherwise it is appended after all existing entries; the
whole loop of additions only ever extends the stored list at its end. -/
theorem claim_C2_append_unique_authors (doc : Doc) (key v : List Char) (vs : List TomlVal)
    (h : getKey doc key = some (.arr vs)) :
    (containsStrVal vs v = true → append_unique_array_value doc key v = .ok doc) ∧
    (containsStrVal vs v = false →
      append_unique_array_value doc key v = .ok (setKey doc key (.arr (vs ++ [.str v])))) ∧
    (∀ additions doc', appendAllUnique key doc additions = .ok doc' →
      ∃ s, getKey doc' key = some (.arr (vs ++ s))) :=
  ⟨(append_unique_spec h).1, (append_unique_spec h).2,
    fun additions _ h2 => appendAllUnique_extends additions h h2⟩

/-- **C2** witness (the spec's example): revising a document listing
`Roger` with author `Alice` appends Alice after Roger, keeping Roger. -/
theorem claim_C2_witness :
    append_unique_array_value [("authors".data, Item.arr [.str "Roger".data])]
        "authors".data "Alice".data =
      .ok [("authors".data, Item.arr [.str "Roger".data, .str "Alice".data])] := by
  have h := (claim_C2_append_unique_authors
    [("authors".data, Item.arr [.str "Roger".data])] "authors".data "Alice".data
    [.str "Roger".data] (by rfl)).2.1 (by decide)
  simpa [setKey] using h

/-! ## C3: history stamping -/

theorem stamp_revision_spec {d d' : Doc} {ts : List Char}
    (h : stamp_revision d ts = .ok d') :
    ∃ old : List RevEntry,
      ((getKey d "revision".data = none ∧ old = []) ∨
        getKey d "revision".data = some (.aot old)) ∧
      getKey d' "revision".data = some (.aot (old ++ [(⟨ts, "Revised".data⟩ : RevEntry)])) ∧
      getKey d' "last_updated".data = some (.value (.str ts)) := by
  rw [stamp_revision, append_revision_entry] at h
  have hrev1 : getKey (setKey d "last_updated".data (.value (.str ts))) "revision".data =
      getKey d "revision".data :=
    getKey_setKey_ne _ _ _ _ (by decide)
  rw [hrev1] at h
  cases hr : getKey d "revision".data with
  | none =>
    rw [hr] at h
    simp only [Option.isNone_none, if_true] at h
    rw [getKey_setKey_self] at h
    cases h
    refine ⟨[], Or.inl ⟨rfl, rfl⟩, ?_, ?_⟩
    · rw [getKey_setKey_self]
    · rw [getKey_setKey_ne _ _ _ _ (by decide), getKey_setKey_ne _ _ _ _ (by decide),
        getKey_setKey_self]
  | some item =>
    rw [hr] at h
    simp only [Option.isNone_some, Bool.false_eq_true, if_false] at h
    rw [hrev1, hr] at h
    cases item with
    | aot old =>
      cases h
      refine ⟨old, Or.inr rfl, ?_, ?_⟩
      · rw [getKey_setKey_self]
      · rw [getKey_setKey_ne _ _ _ _ (by decide), getKey_setKey_self]
    | value v => cases h
    | arr vs => cases h

theorem stamp_revision_getKey_ne {d d' : Doc} {ts k' : List Char}
    (h : stamp_revision d ts = .ok d') (h1 : k' ≠ "last_updated".data)
    (h2 : k' ≠ "revision".data) :
    getKey d' k' = getKey d k' := by
  rw [stamp_revision, append_revision_entry] at h
  split at h
  · cases h
    rw [getKey_setKey_ne _ _ _ _ h2]
    split
    · rw [getKey_setKey_ne _ _ _ _ h2, getKey_setKey_ne _ _ _ _ h1]
    · rw [getKey_setKey_ne _ _ _ _ h1]
  · cases h

theorem apply_scalar_edits_getKey_ne (cli : RfcEditArgs)
    (references : ResolvedMetadataReferences) (d : Doc) (k' : List Char)
    (h1 : k' ≠ "discussion".data) (h2 : k' ≠ "tracking_issue".data)
    (h3 : k' ≠ "prerequisite".data) (h4 : k' ≠ "supersedes".data)
    (h5 : k' ≠ "superseded_by".data) (h6 : k' ≠ "title".data) :
    getKey (apply_scalar_edits cli references d) k' = getKey d k' := by
  rw [apply_scalar_edits]
  cases cli.discussion <;> cases cli.tracking_issue <;>
    cases revision_title_override cli <;>
    dsimp only <;>
    by_cases hp : references.prerequisite.isEmpty <;>
    by_cases hs : references.supersedes.isEmpty <;>
    by_cases hsb : references.superseded_by.isEmpty <;>
    simp [hp, hs, hsb, set_integer_array_value,
      getKey_setKey_ne _ _ _ _ h1, getKey_setKey_ne _ _ _ _ h2,
      getKey_setKey_ne _ _ _ _ h3, getKey_setKey_ne _ _ _ _ h4,
      getKey_setKey_ne _ _ _ _ h5, getKey_setKey_ne _ _ _ _ h6]

/-- Split a successful `merge_metadata` run into its stages. -/
theorem merge_metadata_destruct {idx : List RfcTitleEntry} {cli : RfcEditArgs}
    {ts : List Char} {doc doc' : Doc}
    (h : merge_metadata idx cli ts doc = .ok doc') :
    ∃ d1 d2 references,
      appendAllUnique "authors".data doc (dedupe cli.authors) = .ok d1 ∧
      appendAllUnique "agents".data d1 (dedupe cli.agents) = .ok d2 ∧
      resolve_metadata_references idx cli = .ok references ∧
      stamp_revision (apply_scalar_edits cli references d2) ts = .ok doc' := by
  rw [merge_metadata] at h
  cases ha : appendAllUnique "authors".data doc (dedupe cli.authors) with
  | error e => rw [ha, except_bind_error] at h; cases h
  | ok d1 =>
    rw [ha, except_bind_ok] at h
    cases hb : appendAllUnique "agents".data d1 (dedupe cli.agents) with
    | error e => rw [hb, except_bind_error] at h; cases h
    | ok d2 =>
      rw [hb, except_bind_ok] at h
      cases hr : resolve_metadata_references idx cli with
      | error e => rw [hr, except_bind_error] at h; cases h
      | ok references =>
        rw [hr, except_bind_ok] at h
        exact ⟨d1, d2, references, rfl, hb, rfl, h⟩

/-- **C3**: every successful merge appends exactly one `{ts, "Revised"}`
entry at the end of the (possibly previously missing) history list,
removes or reorders nothing, and sets `last_updated` to the timestamp of
that final entry. -/
theorem claim_C3_revision_history (idx : List RfcTitleEntry) (cli : RfcEditArgs)
    (ts : List Char) (doc doc' : Doc)
    (h : merge_metadata idx cli ts doc = .ok doc') :
    ∃ old : List RevEntry,
      ((getKey doc "revision".data = none ∧ old = []) ∨
        getKey doc "revision".data = some (.aot old)) ∧
      getKey doc' "revision".data = some (.aot (old ++ [(⟨ts, "Revised".data⟩ : RevEntry)])) ∧
      getKey doc' "last_updated".data = some (.value (.str ts)) ∧
      (old ++ [(⟨ts, "Revised".data⟩ : RevEntry)]).getLast? = some (⟨ts, "Revised".data⟩ : RevEntry) := by
  obtain ⟨d1, d2, references, ha, hb, hr, hst⟩ := merge_metadata_destruct h
  obtain ⟨old, hold, hrev, hlast⟩ := stamp_revision_spec hst
  have e2 : getKey (apply_scalar_edits cli references d2) "revision".data =
      getKey doc "revision".data := by
    rw [apply_scalar_edits_getKey_ne cli references d2 "revision".data
      (by decide) (by decide) (by decide) (by decide) (by decide) (by decide),
      appendAllUnique_getKey_ne _ hb (by decide),
      appendAllUnique_getKey_ne _ ha (by decide)]
  rw [e2] at hold
  exact ⟨old, hold, hrev, hlast, List.getLast?_concat _⟩

/-- **C3** witness: merging a no-op edit over a document with one existing
history entry appends exactly one `Revised` entry and matches
`last_updated`. -/
theorem claim_C3_witness :
    ∃ old : List RevEntry,
      ((getKey [("revision".data, Item.aot [⟨"t0".data, "Initial draft".data⟩])]
          "revision".data = none ∧ old = []) ∨
        getKey [("revision".data, Item.aot [⟨"t0".data, "Initial draft".data⟩])]
          "revision".data = some (.aot old)) ∧
      getKey [("revision".data,
            Item.aot [⟨"t0".data, "Initial draft".data⟩, ⟨"t1".data, "Revised".data⟩]),
          ("last_updated".data, Item.value (.str "t1".data))]
        "revision".data = some (.aot (old ++ [(⟨"t1".data, "Revised".data⟩ : RevEntry)])) ∧
      getKey [("revision".data,
            Item.aot [⟨"t0".data, "Initial draft".data⟩, ⟨"t1".data, "Revised".data⟩]),
          ("last_updated".data, Item.value (.str "t1".data))]
        "last_updated".data = some (.value (.str "t1".data)) ∧
      (old ++ [(⟨"t1".data, "Revised".data⟩ : RevEntry)]).getLast? =
        some (⟨"t1".data, "Revised".data⟩ : RevEntry) :=
  claim_C3_revision_history [] emptyEdit "t1".data
    [("revision".data, Item.aot [⟨"t0".data, "Initial draft".data⟩])]
    [("revision".data,
        Item.aot [⟨"t0".data, "Initial draft".data⟩, ⟨"t1".data, "Revised".data⟩]),
      ("last_updated".data, Item.value (.str "t1".data))]
    (by decide)

/-! ## C4: wholesale replacement of reference lists -/

theorem apply_scalar_edits_prerequisite (cli : RfcEditArgs)
    (references : ResolvedMetadataReferences) (d : Doc)
    (h : references.prerequisite.isEmpty = false) :
    getKey (apply_scalar_edits cli references d) "prerequisite".data =
      some (.arr (references.prerequisite.map (fun n => .int (Int.ofNat n)))) := by
  have n1 : ("prerequisite".data : List Char) ≠ "supersedes".data := by decide
  have n2 : ("prerequisite".data : List Char) ≠ "superseded_by".data := by decide
  have n3 : ("prerequisite".data : List Char) ≠ "title".data := by decide
  rw [apply_scalar_edits]
  cases revision_title_override cli <;>
    by_cases hs : references.supersedes.isEmpty <;>
    by_cases hsb : references.superseded_by.isEmpty <;>
    simp [h, hs, hsb, set_integer_array_value, getKey_setKey_self,
      getKey_setKey_ne _ _ _ _ n1, getKey_setKey_ne _ _ _ _ n2,
      getKey_setKey_ne _ _ _ _ n3]

theorem apply_scalar_edits_supersedes (cli : RfcEditArgs)
    (references : ResolvedMetadataReferences) (d : Doc)
    (h : references.supersedes.isEmpty = false) :
    getKey (apply_scalar_edits cli references d) "supersedes".data =
      some (.arr (references.supersedes.map (fun n => .int (Int.ofNat n)))) := by
  have n2 : ("supersedes".data : List Char) ≠ "superseded_by".data := by decide
  have n3 : ("supersedes".data : List Char) ≠ "title".data := by decide
  rw [apply_scalar_edits]
  cases revision_title_override cli <;>
    by_cases hsb : references.superseded_by.isEmpty <;>
    simp [h, hsb, set_integer_array_value, getKey_setKey_self,
      getKey_setKey_ne _ _ _ _ n2, getKey_setKey_ne _ _ _ _ n3]

theorem apply_scalar_edits_superseded_by (cli : RfcEditArgs)
    (references : ResolvedMetadataReferences) (d : Doc)
    (h : references.superseded_by.isEmpty = false) :
    getKey (apply_scalar_edits cli references d) "superseded_by".data =
      some (.arr (references.superseded_by.map (fun n => .int (Int.ofNat n)))) := by
  have n3 : ("superseded_by".data : List Char) ≠ "title".data := by decide
  rw [apply_scalar_edits]
  cases revision_title_override cli <;>
    simp [h, set_integer_array_value, getKey_setKey_self, getKey_setKey_ne _ _ _ _ n3]

theorem resolve_metadata_references_destruct {idx : List RfcTitleEntry}
    {cli : RfcEditArgs} {references : ResolvedMetadataReferences}
    (h : resolve_metadata_references idx cli = .ok references) :
    ∃ rawp raws rawsb,
      resolveRefsAux (if needsTitleLookup cli then some idx else none)
          cli.prerequisite = .ok rawp ∧
      references.prerequisite = dedupe rawp ∧
      resolveRefsAux (if needsTitleLookup cli then some idx else none)
          cli.supersedes = .ok raws ∧
      references.supersedes = dedupe raws ∧
      resolveRefsAux (if needsTitleLookup cli then some idx else none)
          cli.superseded_by = .ok rawsb ∧
      references.superseded_by = dedupe rawsb := by
  rw [resolve_metadata_references] at h
  simp only [resolve_reference_list] at h
  cases hp : resolveRefsAux (if needsTitleLookup cli then some idx else none)
      cli.prerequisite with
  | error e => rw [hp] at h; simp only [Except.map, except_bind_error] at h; cases h
  | ok rawp =>
    rw [hp] at h
    simp only [Except.map, except_bind_ok] at h
    cases hs : resolveRefsAux (if needsTitleLookup cli then some idx else none)
        cli.supersedes with
    | error e => rw [hs] at h; simp only [Except.map, except_bind_error] at h; cases h
    | ok raws =>
      rw [hs] at h
      simp only [Except.map, except_bind_ok] at h
      cases hsb : resolveRefsAux (if needsTitleLookup cli then some idx else none)
          cli.superseded_by with
      | error e => rw [hsb] at h; simp only [Except.map, except_bind_error] at h; cases h
      | ok rawsb =>
        rw [hsb] at h
        simp only [Except.map, except_bind_ok] at h
        cases h
        exact ⟨rawp, raws, rawsb, rfl, rfl, rfl, rfl, rfl, rfl⟩

theorem dedupe_isEmpty_false {α : Type} [DecidableEq α] (x : α) (xs : List α) :
    (dedupe (x :: xs)).isEmpty = false := by
  rw [dedupe_eq_firstSeenDedup, firstSeenDedup]
  rfl

/-- **C4**: whenever the edit request supplies a value for a
reference-list field, the stored identifier list is replaced wholesale by
the freshly resolved list, deduplicated first-seen: each resolved id
appears exactly once, in first-occurrence order. -/
theorem claim_C4_reference_lists_replaced (idx : List RfcTitleEntry) (cli : RfcEditArgs)
    (ts : List Char) (doc doc' : Doc)
    (h : merge_metadata idx cli ts doc = .ok doc') :
    (cli.prerequisite ≠ [] →
      ∃ raw, resolveRefsAux (if needsTitleLookup cli then some idx else none)
          cli.prerequisite = .ok raw ∧
        getKey doc' "prerequisite".data =
          some (.arr ((dedupe raw).map (fun n => .int (Int.ofNat n)))) ∧
        dedupe raw = firstSeenDedup raw ∧ (dedupe raw).Nodup ∧
        (∀ a, a ∈ dedupe raw ↔ a ∈ raw) ∧ List.Sublist (dedupe raw) raw) ∧
    (cli.supersedes ≠ [] →
      ∃ raw, resolveRefsAux (if needsTitleLookup cli then some idx else none)
          cli.supersedes = .ok raw ∧
        getKey doc' "supersedes".data =
          some (.arr ((dedupe raw).map (fun n => .int (Int.ofNat n)))) ∧
        dedupe raw = firstSeenDedup raw ∧ (dedupe raw).Nodup ∧
        (∀ a, a ∈ dedupe raw ↔ a ∈ raw) ∧ List.Sublist (dedupe raw) raw) ∧
    (cli.superseded_by ≠ [] →
      ∃ raw, resolveRefsAux (if needsTitleLookup cli then some idx else none)
          cli.superseded_by = .ok raw ∧
        getKey doc' "superseded_by".data =
          some (.arr ((dedupe raw).map (fun n => .int (Int.ofNat n)))) ∧
        dedupe raw = firstSeenDedup raw ∧ (dedupe raw).Nodup ∧
        (∀ a, a ∈ dedupe raw ↔ a ∈ raw) ∧ List.Sublist (dedupe raw) raw) := by
  obtain ⟨d1, d2, references, ha, hb, hr, hst⟩ := merge_metadata_destruct h
  obtain ⟨rawp, raws, rawsb, hp, hpe, hs, hse, hsb, hsbe⟩ :=
    resolve_metadata_references_destruct hr
  have props : ∀ raw : List Nat,
      dedupe raw = firstSeenDedup raw ∧ (dedupe raw).Nodup ∧
      (∀ a, a ∈ dedupe raw ↔ a ∈ raw) ∧ List.Sublist (dedupe raw) raw := by
    intro raw
    refine ⟨dedupe_eq_firstSeenDedup raw, ?_, ?_, ?_⟩
    · rw [dedupe_eq_firstSeenDedup]; exact nodup_firstSeenDedup raw
    · intro a; rw [dedupe_eq_firstSeenDedup]; exact mem_firstSeenDedup a raw
    · rw [dedupe_eq_firstSeenDedup]; exact firstSeenDedup_sublist raw
  have hnonempty : ∀ (refs : List RfcReference) (raw : List Nat),
      resolveRefsAux (if needsTitleLookup cli then some idx else none) refs = .ok raw →
      refs ≠ [] → (dedupe raw).isEmpty = false := by
    intro refs raw hres hne
    have hlen := resolveRefsAux_ok_length _ refs raw hres
    cases raw with
    | nil =>
      cases refs with
      | nil => exact absurd rfl hne
      | cons r rs => simp at hlen
    | cons x xs => exact dedupe_isEmpty_false x xs
  refine ⟨?_, ?_, ?_⟩
  · intro hne
    refine ⟨rawp, hp, ?_, props rawp⟩
    rw [stamp_revision_getKey_ne hst (by decide) (by decide),
      apply_scalar_edits_prerequisite cli references d2
        (by rw [hpe]; exact hnonempty _ _ hp hne), hpe]
  · intro hne
    refine ⟨raws, hs, ?_, props raws⟩
    rw [stamp_revision_getKey_ne hst (by decide) (by decide),
      apply_scalar_edits_supersedes cli references d2
        (by rw [hse]; exact hnonempty _ _ hs hne), hse]
  · intro hne
    refine ⟨rawsb, hsb, ?_, props rawsb⟩
    rw [stamp_revision_getKey_ne hst (by decide) (by decide),
      apply_scalar_edits_superseded_by cli references d2
        (by rw [hsbe]; exact hnonempty _ _ hsb hne), hsbe]

/-- **C4** witness (the spec's duplicate example): supplying
`prerequisite = [4, 1, 4, 2, 1]` replaces the stored list with `[4, 1, 2]`
— first-seen order, no repeats. -/
theorem claim_C4_witness :
    ∃ raw, resolveRefsAux none
        ([.id 4, .id 1, .id 4, .id 2, .id 1] : List RfcReference) = .ok raw ∧
      getKey [("prerequisite".data, Item.arr [.int 4, .int 1, .int 2]),
          ("last_updated".data, Item.value (.str "t".data)),
          ("revision".data, Item.aot [⟨"t".data, "Revised".data⟩])]
        "prerequisite".data =
        some (.arr ((dedupe raw).map (fun n => .int (Int.ofNat n)))) ∧
      dedupe raw = firstSeenDedup raw ∧ (dedupe raw).Nodup ∧
      (∀ a, a ∈ dedupe raw ↔ a ∈ raw) ∧ List.Sublist (dedupe raw) raw :=
  (claim_C4_reference_lists_replaced []
    ⟨[], [], none, none, [.id 4, .id 1, .id 4, .id 2, .id 1], [], [], none, []⟩
    "t".data []
    [("prerequisite".data, Item.arr [.int 4, .int 1, .int 2]),
      ("last_updated".data, Item.value (.str "t".data)),
      ("revision".data, Item.aot [⟨"t".data, "Revised".data⟩])]
    (by decide)).1 (by decide)

/-! ## C10 and C1: the title resolver -/

theorem dropWhile_head?_false {α : Type} (p : α → Bool) (l : List α) :
    ∀ x, (l.dropWhile p).head? = some x → p x = false := by
  induction l with
  | nil => intro x h; simp [List.dropWhile] at h
  | cons a as ih =>
    intro x h
    by_cases hp : p a
    · rw [List.dropWhile_cons_of_pos hp] at h
      exact ih x h
    · rw [List.dropWhile_cons_of_neg hp] at h
      simp only [List.head?_cons, Option.some.injEq] at h
      subst h
      simpa using hp

theorem dropWhile_eq_self_of_head {α : Type} (p : α → Bool) (l : List α)
    (h : ∀ x, l.head? = some x → p x = false) : l.dropWhile p = l := by
  cases l with
  | nil => rfl
  | cons a as =>
    rw [List.dropWhile_cons_of_neg]
    simp [h a rfl]

theorem getLast?_dropWhile {α : Type} (p : α → Bool) (l : List α)
    (h : l.dropWhile p ≠ []) : (l.dropWhile p).getLast? = l.getLast? := by
  obtain ⟨t, ht⟩ := List.dropWhile_suffix (l := l) p
  have hl : l.getLast? = (t ++ l.dropWhile p).getLast? := by rw [ht]
  rw [hl, List.getLast?_append]
  cases hlast : (l.dropWhile p).getLast? with
  | none =>
    exact absurd (List.getLast?_eq_none_iff.mp hlast) h
  | some x => rfl

theorem trimChars_idem (l : List Char) : trimChars (trimChars l) = trimChars l := by
  unfold trimChars
  by_cases hbnil : (l.dropWhile isTrimWhitespace).reverse.dropWhile isTrimWhitespace = []
  · rw [hbnil]
    rfl
  · have h1 : ((l.dropWhile isTrimWhitespace).reverse.dropWhile
        isTrimWhitespace).reverse.dropWhile isTrimWhitespace =
        ((l.dropWhile isTrimWhitespace).reverse.dropWhile isTrimWhitespace).reverse := by
      apply dropWhile_eq_self_of_head
      intro x hx
      rw [List.head?_reverse] at hx
      rw [getLast?_dropWhile _ _ hbnil, List.getLast?_reverse] at hx
      exact dropWhile_head?_false _ _ x hx
    rw [h1, List.reverse_reverse]
    have h3 : ((l.dropWhile isTrimWhitespace).reverse.dropWhile
        isTrimWhitespace).dropWhile isTrimWhitespace =
        (l.dropWhile isTrimWhitespace).reverse.dropWhile isTrimWhitespace := by
      apply dropWhile_eq_self_of_head
      intro x hx
      exact dropWhile_head?_false _ _ x hx
    rw [h3]

/-- **C10**: an empty (or all-whitespace) reference fails with the
dedicated empty-reference error before any tier runs, and resolution only
ever sees the whitespace-trimmed input: resolving the raw reference equals
resolving its trimmed form. -/
theorem claim_C10_empty_and_trimmed (entries : List RfcTitleEntry) (input : List Char) :
    (trimChars input = [] → resolve_title entries input = .error .emptyReference) ∧
    resolve_title entries input = resolve_title entries (trimChars input) := by
  constructor
  · intro h
    rw [resolve_title]
    simp [h]
  · simp only [resolve_title, trimChars_idem]

/-- **C10** witness: a whitespace-only reference triggers the
empty-reference error, not a not-found error. -/
theorem claim_C10_witness :
    resolve_title [] "  ".data = .error .emptyReference :=
  (claim_C10_empty_and_trimmed [] "  ".data).1 (by decide)

/-- **C1** (amended: restricted to references whose trimmed content is
non-empty): resolution tries exact, case-folded and slug tiers in order;
a tier is consulted only when every earlier tier matched nothing; a unique
match returns that entry's id, two or more matches at a tier fail with an
ambiguity error carrying every conflicting id/title pair, and zero matches
at all three tiers fail with not-found. -/
theorem claim_C1_resolution_tiers (entries : List RfcTitleEntry) (input : List Char)
    (hne : (trimChars input).isEmpty = false) :
    (∀ e, exactMatches entries (trimChars input) = [e] →
      resolve_title entries input = .ok e.id) ∧
    (2 ≤ (exactMatches entries (trimChars input)).length →
      resolve_title entries input =
        .error (.ambiguousReference 1
          (format_match_list (exactMatches entries (trimChars input))))) ∧
    (exactMatches entries (trimChars input) = [] →
      (∀ e, foldedMatches entries (foldChars (trimChars input)) = [e] →
        resolve_title entries input = .ok e.id) ∧
      (2 ≤ (foldedMatches entries (foldChars (trimChars input))).length →
        resolve_title entries input =
          .error (.ambiguousReference 2
            (format_match_list (foldedMatches entries (foldChars (trimChars input)))))) ∧
      (foldedMatches entries (foldChars (trimChars input)) = [] →
        (∀ e, slugMatches entries (slugify (trimChars input)) = [e] →
          resolve_title entries input = .ok e.id) ∧
        (2 ≤ (slugMatches entries (slugify (trimChars input))).length →
          resolve_title entries input =
            .error (.ambiguousReference 3
              (format_match_list (slugMatches entries (slugify (trimChars input)))))) ∧
        (slugMatches entries (slugify (trimChars input)) = [] →
          resolve_title entries input = .error .referenceNotFound))) := by
  have hcond : ¬((trimChars input).isEmpty = true) := by simp [hne]
  refine ⟨?_, ?_, ?_⟩
  · intro e he
    rw [resolve_title]
    simp only [he, hne, Bool.false_eq_true, if_false]
  · intro hlen
    rcases hE : exactMatches entries (trimChars input) with _ | ⟨a, _ | ⟨b, t⟩⟩
    · rw [hE] at hlen; simp at hlen
    · rw [hE] at hlen; simp at hlen
    · rw [resolve_title]
      simp only [hE, hne, Bool.false_eq_true, if_false]
  · intro hE
    refine ⟨?_, ?_, ?_⟩
    · intro e he
      rw [resolve_title]
      simp only [hE, he, hne, Bool.false_eq_true, if_false]
    · intro hlen
      rcases hF : foldedMatches entries (foldChars (trimChars input)) with _ | ⟨a, _ | ⟨b, t⟩⟩
      · rw [hF] at hlen; simp at hlen
      · rw [hF] at hlen; simp at hlen
      · rw [resolve_title]
        simp only [hE, hF, hne, Bool.false_eq_true, if_false]
    · intro hF
      refine ⟨?_, ?_, ?_⟩
      · intro e he
        rw [resolve_title]
        simp only [hE, hF, he, hne, Bool.false_eq_true, if_false]
      · intro hlen
        rcases hS : slugMatches entries (slugify (trimChars input)) with _ | ⟨a, _ | ⟨b, t⟩⟩
        · rw [hS] at hlen; simp at hlen
        · rw [hS] at hlen; simp at hlen
        · rw [resolve_title]
          simp only [hE, hF, hS, hne, Bool.false_eq_true, if_false]
      · intro hS
        rw [resolve_title]
        simp only [hE, hF, hS, hne, Bool.false_eq_true, if_false]

/-- **C1** witness: an index with one entry resolves its exact title. -/
theorem claim_C1_witness :
    resolve_title [⟨1, "a".data, "a".data, "a".data⟩] "a".data = .ok 1 :=
  (claim_C1_resolution_tiers [⟨1, "a".data, "a".data, "a".data⟩] "a".data
    (by decide)).1 ⟨1, "a".data, "a".data, "a".data⟩ (by decide)

/-- **C1** counterexample: for the empty reference all three tiers have
zero matches, yet resolution fails with the empty-reference error, not the
not-found error the claim requires. -/
theorem claim_C1_counterexample :
    exactMatches [] (trimChars []) = [] ∧
    foldedMatches [] (foldChars (trimChars [])) = [] ∧
    slugMatches [] (slugify (trimChars [])) = [] ∧
    resolve_title [] [] ≠ .error .referenceNotFound := by decide

/-! ## C8: creation-time title-conflict check -/

/-- **C8**: the creation-time conflict check flags exactly the entries
whose case-folded title or slug equals that of the (trimmed) candidate —
tiers 2 and 3, symmetric, with every conflicting entry reported — and
creating `"Example"` beside an existing `"example"` fails with an error
naming the existing id. -/
theorem claim_C8_title_conflicts (entries : List RfcTitleEntry) (input : List Char)
    (e : RfcTitleEntry) (hne : (trimChars input).isEmpty = false) :
    (e ∈ find_title_conflicts entries input ↔
      e ∈ entries ∧ (e.title_folded = foldChars (trimChars input) ∨
        e.title_slug = slugify (trimChars input))) ∧
    ensure_unique_rfc_title [⟨1, "example".data, "example".data, "example".data⟩]
      "Example".data = .error (.duplicateTitle [⟨1, "example".data⟩]) := by
  constructor
  · rw [find_title_conflicts]
    simp only [hne, Bool.false_eq_true, if_false, List.mem_filter, Bool.or_eq_true,
      beq_iff_eq]
  · decide

/-- **C8** witness: the general characterisation applied to the concrete
`example`/`Example` pair — the existing entry is flagged as a conflict. -/
theorem claim_C8_witness :
    (⟨1, "example".data, "example".data, "example".data⟩ : RfcTitleEntry) ∈
      find_title_conflicts [⟨1, "example".data, "example".data, "example".data⟩]
        "Example".data :=
  ((claim_C8_title_conflicts [⟨1, "example".data, "example".data, "example".data⟩]
    "Example".data ⟨1, "example".data, "example".data, "example".data⟩
    (by decide)).1).mpr (by decide)

/-! ## C7: slugify is idempotent -/

theorem char_toNat_ofNat_valid {n : Nat} (h : n < 55296) : (Char.ofNat n).toNat = n := by
  rw [Char.ofNat, dif_pos (Or.inl h)]
  rfl

theorem toAsciiLower_alnum {c : Char} (h : isAsciiAlphanumeric c = true) :
    isSlugChar (toAsciiLower c) = true ∧ toAsciiLower c ≠ '-' := by
  by_cases hu : isAsciiUpper c = true
  · have hb : 65 ≤ c.toNat ∧ c.toNat ≤ 90 := by
      simpa [isAsciiUpper, Bool.and_eq_true, decide_eq_true_eq] using hu
    rw [toAsciiLower, if_pos hu]
    have hv : (Char.ofNat (c.toNat + 32)).toNat = c.toNat + 32 :=
      char_toNat_ofNat_valid (by omega)
    constructor
    · have hlow : isAsciiLower (Char.ofNat (c.toNat + 32)) = true := by
        simp only [isAsciiLower, hv, Bool.and_eq_true, decide_eq_true_eq]
        omega
      simp [isSlugChar, hlow]
    · intro hdash
      have h45 : (Char.ofNat (c.toNat + 32)).toNat = 45 := by rw [hdash]; rfl
      rw [hv] at h45
      omega
  · have hu' : isAsciiUpper c = false := by simpa using hu
    rw [toAsciiLower, if_neg (by simp [hu'])]
    have hld : isAsciiLower c = true ∨ isAsciiDigit c = true := by
      have := h
      simp only [isAsciiAlphanumeric, hu', Bool.false_or, Bool.or_eq_true] at this
      exact this
    constructor
    · rcases hld with h1 | h1 <;> simp [isSlugChar, h1]
    · intro hdash
      rcases hld with h1 | h1 <;> rw [hdash] at h1 <;> exact absurd h1 (by decide)

theorem slugChar_not_dash {c : Char} (h1 : isSlugChar c = true) (h2 : c ≠ '-') :
    isAsciiAlphanumeric c = true ∧ toAsciiLower c = c := by
  have hld : isAsciiLower c = true ∨ isAsciiDigit c = true := by
    simp only [isSlugChar, Bool.or_eq_true, decide_eq_true_eq] at h1
    rcases h1 with (h | h) | h
    · exact Or.inl h
    · exact Or.inr h
    · exact absurd h h2
  have hu : isAsciiUpper c = false := by
    rw [isAsciiUpper, Bool.eq_false_iff]
    intro hcon
    rw [Bool.and_eq_true, decide_eq_true_eq, decide_eq_true_eq] at hcon
    rcases hld with h | h <;>
      simp only [isAsciiLower, isAsciiDigit, Bool.and_eq_true, decide_eq_true_eq] at h <;>
      omega
  constructor
  · rcases hld with h | h <;> simp [isAsciiAlphanumeric, h]
  · rw [toAsciiLower, if_neg (by simp [hu])]

theorem slugStep_inv {st : List Char × Bool} {ch : Char} (h : SlugInv st) :
    SlugInv (slugStep st ch) := by
  obtain ⟨out, sd⟩ := st
  obtain ⟨hchars, hhead, hchain, hsd⟩ := h
  rw [slugStep]
  by_cases halnum : isAsciiAlphanumeric ch = true
  · rw [if_pos halnum]
    obtain ⟨hslug, hnd⟩ := toAsciiLower_alnum halnum
    refine ⟨?_, ?_, ?_, ?_⟩
    · intro c hc
      rcases List.mem_append.mp hc with hin | hin
      · exact hchars c hin
      · rw [List.mem_singleton.mp hin]; exact hslug
    · cases out with
      | nil =>
        simp only [List.nil_append, List.head?_cons, ne_eq, Option.some.injEq]
        exact hnd
      | cons a as =>
        simpa using hhead
    · rw [List.chain'_append]
      refine ⟨hchain, List.chain'_singleton _, ?_⟩
      intro x _ y hy
      rw [List.head?_cons, Option.mem_def, Option.some.injEq] at hy
      exact fun hcon => hnd (hy ▸ hcon.2)
    · rw [List.getLast?_concat]
      constructor
      · intro hfalse; cases hfalse
      · intro hsome
        exact absurd (Option.some.injEq _ _ ▸ hsome) hnd
  · rw [if_neg halnum]
    by_cases hsep : (isAsciiWhitespace ch || ch = '-' || ch = '_') = true
    · rw [if_pos hsep]
      by_cases hskip : (sd || out.isEmpty) = true
      · rw [if_pos hskip]
        exact ⟨hchars, hhead, hchain, hsd⟩
      · rw [if_neg hskip]
        have hsdf : sd = false := by
          cases hb : sd
          · rfl
          · rw [hb] at hskip; simp at hskip
        have houtne : out ≠ [] := by
          intro hnil
          rw [hnil] at hskip
          simp [hsdf] at hskip
        have hlastnd : out.getLast? ≠ some '-' := by
          intro hl
          have := hsd.mpr hl
          rw [hsdf] at this
          cases this
        refine ⟨?_, ?_, ?_, ?_⟩
        · intro c hc
          rcases List.mem_append.mp hc with hin | hin
          · exact hchars c hin
          · rw [List.mem_singleton.mp hin]; decide
        · cases out with
          | nil => exact absurd rfl houtne
          | cons a as => simpa using hhead
        · rw [List.chain'_append]
          refine ⟨hchain, List.chain'_singleton _, ?_⟩
          intro x hx y hy
          rw [Option.mem_def] at hx
          exact fun hcon => hlastnd (hx ▸ congrArg some hcon.1 ▸ rfl)
        · rw [List.getLast?_concat]
          simp
    · rw [if_neg hsep]
      exact ⟨hchars, hhead, hchain, hsd⟩

theorem slugFold_inv {st : List Char × Bool} (l : List Char) (h : SlugInv st) :
    SlugInv (l.foldl slugStep st) := by
  induction l generalizing st with
  | nil => exact h
  | cons c cs ih => exact ih (slugStep_inv h)

theorem slugFold_fixed :
    ∀ (cs : List Char) (out : List Char) (sd : Bool),
      (sd = true ↔ out.getLast? = some '-') →
      (∀ c ∈ cs, isSlugChar c = true) →
      List.Chain' (fun a b => ¬(a = '-' ∧ b = '-')) cs →
      (cs.head? = some '-' → out ≠ [] ∧ sd = false) →
      (cs.foldl slugStep (out, sd)).1 = out ++ cs ∧
        ((cs.foldl slugStep (out, sd)).2 = true ↔
          (cs.foldl slugStep (out, sd)).1.getLast? = some '-') := by
  intro cs
  induction cs with
  | nil =>
    intro out sd hiff _ _ _
    simp only [List.foldl_nil]
    exact ⟨(List.append_nil out).symm, hiff⟩
  | cons c cs' ih =>
    intro out sd hiff hchars hchain hbound
    rw [List.foldl_cons]
    have hchain' := List.chain'_cons'.mp hchain
    by_cases hc : c = '-'
    · subst hc
      obtain ⟨houtne, hsdf⟩ := hbound rfl
      have hoe : out.isEmpty = false := by
        cases out with
        | nil => exact absurd rfl houtne
        | cons a as => rfl
      have hstep : slugStep (out, sd) '-' = (out ++ ['-'], true) := by
        rw [slugStep]
        dsimp only
        rw [if_neg (by decide), if_pos (by decide), hsdf, hoe]
        rw [if_neg (by decide)]
      rw [hstep]
      have hres := ih (out ++ ['-']) true
        (by simp [List.getLast?_concat])
        (fun x hx => hchars x (List.mem_cons_of_mem _ hx))
        hchain'.2
        (by
          intro hh
          exact absurd ⟨rfl, rfl⟩ (hchain'.1 '-' (by rw [hh]; rfl)))
      refine ⟨?_, hres.2⟩
      rw [hres.1]
      simp
    · have hcslug := hchars c (List.mem_cons_self c cs')
      obtain ⟨halnum, hlower⟩ := slugChar_not_dash hcslug hc
      have hstep : slugStep (out, sd) c = (out ++ [c], false) := by
        rw [slugStep]
        dsimp only
        rw [if_pos halnum, hlower]
      rw [hstep]
      have hres := ih (out ++ [c]) false
        (by simp [List.getLast?_concat, hc])
        (fun x hx => hchars x (List.mem_cons_of_mem _ hx))
        hchain'.2
        (by
          intro hh
          exact ⟨by simp, rfl⟩)
      refine ⟨?_, hres.2⟩
      rw [hres.1]
      simp

theorem slugify_canonical (t : List Char) : SlugCanonical (slugify t) := by
  have hinv : SlugInv (t.foldl slugStep ([], false)) :=
    slugFold_inv t (by refine ⟨?_, ?_, ?_, ?_⟩ <;> simp)
  obtain ⟨hchars, hhead, hchain, hsd⟩ := hinv
  rw [slugify]
  dsimp only
  by_cases hemp : (dropTrailingDashes (t.foldl slugStep ([], false)).1).isEmpty = true
  · rw [if_pos hemp]
    refine ⟨by decide, by decide, by decide, by decide, ?_⟩
    show List.Chain' _ ('u' :: 'n' :: 't' :: 'i' :: 't' :: 'l' :: 'e' :: 'd' :: [])
    simp [List.chain'_cons, List.chain'_singleton]
  · rw [if_neg hemp]
    have hemp' : dropTrailingDashes (t.foldl slugStep ([], false)).1 ≠ [] := by
      intro hnil
      rw [hnil] at hemp
      exact hemp rfl
    obtain ⟨t2, ht2⟩ :=
      List.dropWhile_suffix (l := (t.foldl slugStep ([], false)).1.reverse)
        (fun c => c == '-')
    have hdecomp : (t.foldl slugStep ([], false)).1 =
        dropTrailingDashes (t.foldl slugStep ([], false)).1 ++ t2.reverse := by
      rw [dropTrailingDashes]
      conv_lhs => rw [← List.reverse_reverse (t.foldl slugStep ([], false)).1, ← ht2]
      rw [List.reverse_append]
    refine ⟨hemp', ?_, ?_, ?_, ?_⟩
    · intro c hc
      apply hchars
      rw [hdecomp]
      exact List.mem_append_left _ hc
    · intro hsome
      apply hhead
      rw [hdecomp]
      cases hdt : dropTrailingDashes (t.foldl slugStep ([], false)).1 with
      | nil => exact absurd hdt hemp'
      | cons a as =>
        rw [hdt] at hsome
        simpa using hsome
    · rw [dropTrailingDashes]
      intro hsome
      rw [List.getLast?_reverse] at hsome
      have := dropWhile_head?_false (fun c => c == '-')
        (t.foldl slugStep ([], false)).1.reverse '-' hsome
      simp at this
    · have hch := hchain
      rw [hdecomp, List.chain'_append] at hch
      exact hch.1

theorem dropTrailingDashes_eq_self {l : List Char} (h : l.getLast? ≠ some '-') :
    dropTrailingDashes l = l := by
  rw [dropTrailingDashes]
  have hdw : l.reverse.dropWhile (fun c => c == '-') = l.reverse := by
    apply dropWhile_eq_self_of_head
    intro x hx
    rw [List.head?_reverse] at hx
    have hxd : x ≠ '-' := by
      intro hh
      rw [hh] at hx
      exact h hx
    simp [hxd]
  rw [hdw, List.reverse_reverse]

theorem slugify_fixed {s : List Char} (h : SlugCanonical s) : slugify s = s := by
  obtain ⟨hne, hchars, hhead, hlast, hchain⟩ := h
  have hfold := slugFold_fixed s [] false (by simp) hchars hchain
    (fun hh => absurd hh hhead)
  have h1 : (s.foldl slugStep ([], false)).1 = s := by simpa using hfold.1
  rw [slugify]
  dsimp only
  rw [h1, dropTrailingDashes_eq_self hlast]
  have hse : s.isEmpty = false := by
    cases s with
    | nil => exact absurd rfl hne
    | cons a as => rfl
  rw [hse]
  rw [if_neg (by decide)]

/-- **C7**: `slugify` is idempotent — its output is always a fixed point:
either the `"untitled"` fallback or a string over `[a-z0-9-]` with no
leading, trailing, or doubled hyphen (the fallback itself also has that
form). -/
theorem claim_C7_slugify_idempotent (t : List Char) :
    slugify (slugify t) = slugify t ∧
      (slugify t = "untitled".data ∨ SlugCanonical (slugify t)) :=
  ⟨slugify_fixed (slugify_canonical t), Or.inr (slugify_canonical t)⟩

end Agx
